import Mathlib

/-!
Verification development for the multi-cloud-recommender query-processing core
(`src/query_processing/reranker.py`, `src/query_processing/retriever.py`,
`src/query_processing/config.py`).

Shallow embedding conventions:
* Python floats are modelled as rationals (`ℚ`); `math.log` is an abstract
  parameter `log : ℚ → ℚ` since no verified property depends on its values
  beyond positivity on arguments greater than 1.
* Python dictionaries (which preserve key insertion order) are modelled as
  association lists updated in place / appended at the end.
* Python exceptions are modelled with `Option`/`Except`: a fallible LLM call
  is an `Option String` (`none` = the call raised), and divisions that could
  raise `ZeroDivisionError` go through `checkedDiv`.
-/

namespace CloudRec

variable {σ α : Type}

/-! ### String literals used by the source -/

def strA : String := "A"

def strB : String := "B"

def rankedMsgL : String := "Ranked #"

def rankedMsgR : String := " by pairwise comparison"

/-! ### Reranker (src/query_processing/reranker.py) -/

/-- Python `str.strip()` on the character list (whitespace trimmed from both
ends). -/
def stripChars (l : List Char) : List Char :=
  ((l.dropWhile Char.isWhitespace).reverse.dropWhile Char.isWhitespace).reverse

/-- `response.strip().upper()` from `_compare_pair`, modelled on the
character list (ASCII uppercasing; the responses of interest are ASCII). -/
def pyStripUpper (s : String) : List Char :=
  (stripChars s.data).map Char.toUpper

/-- Result parsing of `LLMReranker._compare_pair` (reranker.py lines 91-110).
The argument is the raw LLM response; `none` models the `generate` call
raising an exception, which the `except` clause turns into `"A"`.
`"A" in result` is single-character containment and `result.startswith`
is list-prefix testing on the character list. -/
def parseChoice (response : Option String) : String :=
  match response with
  | none => strA
  | some resp =>
    let result := pyStripUpper resp
    if result.contains 'A' && !(result.contains 'B') then strA
    else if result.contains 'B' && !(result.contains 'A') then strB
    else if List.isPrefixOf strA.data result then strA
    else if List.isPrefixOf strB.data result then strB
    else strA

/-- The pairwise oracle: given internal state and the two candidates, returns
the raw response (`none` = the call raised) and the next state.  This stands
for `self.llm.generate(prompt)` applied to the comparison prompt built from
the two candidates. -/
def Oracle (σ α : Type) : Type := σ → α → α → Option String × σ

/-- One back-to-first bubblesort pass (reranker.py lines 147-153):
`for i in range(len(ranked) - 1, 0, -1)` compares positions `i-1`/`i` and
swaps when the winner is `"B"`.  The last pair is compared first, so the
recursion processes the tail before the head comparison.  Returns the new
list, the final oracle state, and the number of oracle calls made. -/
def bubblePass (oracle : Oracle σ α) : σ → List α → List α × σ × Nat
  | s, [] => ([], s, 0)
  | s, [a] => ([a], s, 0)
  | s, a :: b :: rest =>
    match bubblePass oracle s (b :: rest) with
    | ([], s1, n) => ([a], s1, n)
    | (c :: tl, s1, n) =>
      let r := oracle s1 a c
      if parseChoice r.1 = strB then (c :: a :: tl, r.2, n + 1)
      else (a :: c :: tl, r.2, n + 1)

/-- `num_passes` iterations of the pass (reranker.py line 143). -/
def bubblePasses (oracle : Oracle σ α) : Nat → σ → List α → List α × σ × Nat
  | 0, s, l => (l, s, 0)
  | p + 1, s, l =>
    let r1 := bubblePass oracle s l
    let r2 := bubblePasses oracle p r1.2.1 r1.1
    (r2.1, r2.2.1, r1.2.2 + r2.2.2)

/-- `self.num_passes = min(config.top_k_results, 3)` (reranker.py line 43). -/
def numPasses (topKResults : Nat) : Nat := min topKResults 3

/-- `RerankingConfig.max_candidates` default (config.py line 42). -/
def defaultMaxCandidates : Nat := 20

/-- `PipelineConfig.top_k_results` default (config.py line 68). -/
def defaultTopKResults : Nat := 5

/-- `ScoredCandidate` (models.py lines 176-184), restricted to the fields
`rerank` writes; the candidate payload is an opaque type `α`. -/
structure ScoredCandidate (α : Type) where
  candidate : α
  llm_relevance_score : ℚ
  llm_explanation : String
  deriving Repr, DecidableEq

/-- `LLMReranker.rerank` (reranker.py lines 112-170).  Also returns the final
oracle state and the total number of oracle calls. -/
def rerank (maxCandidates numPassesArg : Nat) (oracle : Oracle σ α) (s0 : σ)
    (candidates : List α) : List (ScoredCandidate α) × σ × Nat :=
  if candidates.length ≤ 1 then
    (candidates.enum.map (fun p => ⟨p.2, 10 - (p.1 : ℚ), ""⟩), s0, 0)
  else
    let candidatesToRank := candidates.take maxCandidates
    let r := bubblePasses oracle numPassesArg s0 candidatesToRank
    let ranked := r.1
    (ranked.enum.map (fun p =>
      ⟨p.2, 10 - ((p.1 : ℚ) * 9 / (max (ranked.length - 1) 1 : Nat)),
        rankedMsgL ++ toString (p.1 + 1) ++ rankedMsgR⟩),
      r.2.1, r.2.2)

/-! ### Pure oracles (deterministic comparator, no state, no failure) -/

/-- An oracle wrapping a deterministic, never-failing comparator. -/
def pureOracle (f : α → α → String) : Oracle Unit α :=
  fun s a b => (some (f a b), s)

/-- The ground-truth comparator for a linear order: answers `"B"` exactly
when the right candidate is strictly better (smaller). -/
def gtFun [LinearOrder α] (a b : α) : String :=
  if b < a then strB else strA

/-- One bubblesort pass under a pure comparator. -/
def purePass (f : α → α → String) : List α → List α
  | [] => []
  | [a] => [a]
  | a :: b :: rest =>
    match purePass f (b :: rest) with
    | [] => [a]
    | c :: tl =>
      if parseChoice (some (f a c)) = strB then c :: a :: tl else a :: c :: tl

/-- Iterated pure passes, first pass applied first. -/
def purePassN (f : α → α → String) : Nat → List α → List α
  | 0, l => l
  | p + 1, l => purePassN f p (purePass f l)

/-- An oracle whose underlying LLM call always raises. -/
def failingOracle : Oracle Unit α := fun s _ _ => (none, s)

/-! ### Insertion-ordered dictionaries

Python `dict` preserves key insertion order: updating an existing key keeps
its position, a new key is appended at the end.  Dictionaries are modelled as
association lists with exactly that update discipline. -/

/-- `dict.get(key)`. -/
def dictGet? (d : List (String × β)) (i : String) : Option β :=
  match d with
  | [] => none
  | (k, v) :: tl => if k = i then some v else dictGet? tl i

/-- `dict.get(key, default)`. -/
def dictGetD (d : List (String × β)) (i : String) (dflt : β) : β :=
  (dictGet? d i).getD dflt

/-- `dict[key] = v`: overwrite in place, or append a fresh entry. -/
def dictSet (d : List (String × β)) (i : String) (v : β) : List (String × β) :=
  match d with
  | [] => [(i, v)]
  | (k, w) :: tl => if k = i then (k, v) :: tl else (k, w) :: dictSet tl i v

/-- `defaultdict(float); scores[key] += v`: add into the first matching entry
in place, or append a fresh entry at the end. -/
def addScore (d : List (String × ℚ)) (i : String) (v : ℚ) : List (String × ℚ) :=
  match d with
  | [] => [(i, v)]
  | (k, w) :: tl => if k = i then (k, w + v) :: tl else (k, w) :: addScore tl i v

/-- The score stored for an id in a `defaultdict(float)` scores dict
(`0` when absent). -/
def getScore (d : List (String × ℚ)) (i : String) : ℚ := dictGetD d i 0

/-- The keys of a dict, in insertion order. -/
def dictKeys (d : List (String × β)) : List String := d.map Prod.fst

/-- Applying a sequence of `scores[id] += v` updates. -/
def applyUpdates (m0 : List (String × ℚ)) (us : List (String × ℚ)) :
    List (String × ℚ) :=
  us.foldl (fun m u => addScore m u.1 u.2) m0

/-! ### BM25 sparse index (retriever.py, class BM25Index) -/

/-- A regex `\w` word character (ASCII reading). -/
def isWordChar (c : Char) : Bool := c.isAlphanum || c == '_'

/-- Worker for `tokenize`: scans the lowercased character list, collecting
maximal runs of word characters (`re.findall` with pattern word-runs). -/
def splitWordRuns : List Char → List Char → List String
  | [], cur => if cur.isEmpty then [] else [String.mk cur.reverse]
  | c :: cs, cur =>
    if isWordChar c then splitWordRuns cs (c :: cur)
    else if cur.isEmpty then splitWordRuns cs []
    else String.mk cur.reverse :: splitWordRuns cs []

/-- `BM25Index._tokenize` (retriever.py lines 53-58): lowercase, then take
the maximal word-character runs. -/
def tokenize (text : String) : List String :=
  splitWordRuns (text.data.map Char.toLower) []

/-- Python float division, raising `ZeroDivisionError` on a zero divisor. -/
def checkedDiv (x y : ℚ) : Option ℚ := if y = 0 then none else some (x / y)

/-- `math.log`, raising `ValueError` on non-positive arguments; the numeric
log itself is the abstract parameter `log`. -/
def checkedLog (log : ℚ → ℚ) (x : ℚ) : Option ℚ :=
  if x ≤ 0 then none else some (log x)

/-- The mutable state of `BM25Index` (retriever.py lines 29-36).  The Python
per-term posting `set` is modelled as a list in insertion order (set
iteration order is unspecified in Python; no verified property depends on
it, and the C5 counterexample below is independent of it). -/
structure BM25Index where
  k1 : ℚ
  b : ℚ
  documents : List (String × List String)
  doc_lengths : List (String × Nat)
  avg_doc_length : ℚ
  doc_freqs : List (String × Nat)
  inverted_index : List (String × List String)
  N : Nat
  deriving Repr, DecidableEq

/-- `BM25Index.__init__` with the default parameters `k1 = 1.5`, `b = 0.75`. -/
def BM25Index.empty : BM25Index :=
  { k1 := 3 / 2
    b := 3 / 4
    documents := []
    doc_lengths := []
    avg_doc_length := 0
    doc_freqs := []
    inverted_index := []
    N := 0 }

/-- First-occurrence deduplication, modelling `set(tokens)` (the iteration
order of the Python set is unspecified; it only influences unobservable
dictionary key order). -/
def uniqueTokens (l : List String) : List String :=
  l.foldl (fun acc t => if t ∈ acc then acc else acc ++ [t]) []

/-- `BM25Index.add_document` (retriever.py lines 38-51).  The final average
length divides by `N ≥ 1`, so plain division is exact there. -/
def addDocument (idx : BM25Index) (doc_id : String) (text : String) : BM25Index :=
  let tokens := tokenize text
  let documents := dictSet idx.documents doc_id tokens
  let docLengths := dictSet idx.doc_lengths doc_id tokens.length
  let uniq := uniqueTokens tokens
  let docFreqs := uniq.foldl (fun d t => dictSet d t (dictGetD d t 0 + 1)) idx.doc_freqs
  let inverted := uniq.foldl (fun d t =>
    let posting := dictGetD d t []
    if doc_id ∈ posting then d else dictSet d t (posting ++ [doc_id]))
    idx.inverted_index
  let newN := idx.N + 1
  { idx with
    documents := documents
    doc_lengths := docLengths
    doc_freqs := docFreqs
    inverted_index := inverted
    N := newN
    avg_doc_length := ((docLengths.map (fun p => (p.2 : ℚ))).sum) / (newN : ℚ) }

/-- `BM25Index._idf` (retriever.py lines 60-65). -/
def bm25Idf (log : ℚ → ℚ) (idx : BM25Index) (term : String) : Option ℚ :=
  let df := dictGetD idx.doc_freqs term 0
  if df = 0 then some 0
  else do
    let q ← checkedDiv ((idx.N : ℚ) - (df : ℚ) + 1 / 2) ((df : ℚ) + 1 / 2)
    checkedLog log (q + 1)

/-- The BM25 score contribution of one document for one query token
(retriever.py lines 92-95): `idf * tf*(k1+1) / (tf + k1*(1 − b + b*doclen/avg))`,
with Python's raising float divisions made explicit. -/
def bm25Contrib (idx : BM25Index) (idfv : ℚ) (tf docLen : Nat) : Option ℚ := do
  let dlr ← checkedDiv (docLen : ℚ) idx.avg_doc_length
  let numer := (tf : ℚ) * (idx.k1 + 1)
  let denom := (tf : ℚ) + idx.k1 * (1 - idx.b + idx.b * dlr)
  checkedDiv (idfv * numer) denom

/-- One iteration of the inner loop of `BM25Index.search` (retriever.py lines
87-95): look up the document's tokens and length (`KeyError` propagates as
`none`) and add its contribution into the scores dict. -/
def bm25InnerStep (idx : BM25Index) (token : String) (idfv : ℚ)
    (sc : List (String × ℚ)) (doc_id : String) : Option (List (String × ℚ)) := do
  let docTokens ← dictGet? idx.documents doc_id
  let docLen ← dictGet? idx.doc_lengths doc_id
  let contrib ← bm25Contrib idx idfv (docTokens.count token) docLen
  pure (addScore sc doc_id contrib)

/-- One iteration of the outer loop of `BM25Index.search` (retriever.py lines
81-95): a token absent from the inverted index is skipped (`continue`),
otherwise its IDF is computed once and every posted document accumulates a
contribution. -/
def bm25TokenStep (log : ℚ → ℚ) (idx : BM25Index)
    (scores : List (String × ℚ)) (token : String) : Option (List (String × ℚ)) :=
  match dictGet? idx.inverted_index token with
  | none => some scores
  | some posting => do
    let idfv ← bm25Idf log idx token
    posting.foldlM (bm25InnerStep idx token idfv) scores

/-- The score-accumulation loop of `BM25Index.search` (retriever.py lines
78-95).  A missing-key lookup (`KeyError`) or a zero division aborts with
`none`, exactly as the un-guarded Python would raise. -/
def bm25Accumulate (log : ℚ → ℚ) (idx : BM25Index) (query : String) :
    Option (List (String × ℚ)) :=
  (tokenize query).foldlM (bm25TokenStep log idx) []

/-- Descending order on scored pairs: `x` before `y` when `x`'s score is at
least `y`'s. -/
def scoreGe (x y : String × ℚ) : Prop := y.2 ≤ x.2

instance : DecidableRel scoreGe := fun x y => inferInstanceAs (Decidable (y.2 ≤ x.2))

instance : IsTotal (String × ℚ) scoreGe := ⟨fun a b => le_total b.2 a.2⟩

instance : IsTrans (String × ℚ) scoreGe := ⟨fun _ _ _ h1 h2 => le_trans h2 h1⟩

/-- `sorted(items, key=lambda x: x[1], reverse=True)`: Python's sort is
stable; on a total preorder the stable descending sort is unique, and
insertion sort with `scoreGe` is stable (proved below). -/
def sortPairsDesc (l : List (String × ℚ)) : List (String × ℚ) :=
  List.insertionSort scoreGe l

/-- `BM25Index.search` (retriever.py lines 67-99): accumulate, sort by
descending score, truncate to `top_k`. -/
def search (log : ℚ → ℚ) (idx : BM25Index) (query : String) (topK : Nat) :
    Option (List (String × ℚ)) := do
  let scores ← bm25Accumulate log idx query
  pure ((sortPairsDesc scores).take topK)

/-! ### Reciprocal rank fusion (retriever.py, `_reciprocal_rank_fusion`) -/

/-- `RetrievalConfig.fusion_top_k` default (config.py line 34). -/
def defaultFusionTopK : Nat := 25

/-- `_reciprocal_rank_fusion` RRF parameter default (retriever.py line 314). -/
def defaultRRFk : Nat := 60

/-- The fused-score dictionary of `_reciprocal_rank_fusion` (retriever.py
lines 326-336): each list contributes `1 / (k + rank)` at its 1-based ranks.
Only the `id` field of the input result dicts is read, so the inputs are
modelled as id lists. -/
def rrfScores (k : Nat) (dense sparse : List String) : List (String × ℚ) :=
  let f1 := dense.enum.foldl
    (fun m p => addScore m p.2 (1 / ((k : ℚ) + ((p.1 : ℚ) + 1)))) []
  sparse.enum.foldl
    (fun m p => addScore m p.2 (1 / ((k : ℚ) + ((p.1 : ℚ) + 1)))) f1

/-- `_reciprocal_rank_fusion` (retriever.py lines 313-342): sort the fused
scores descending and truncate to `fusion_top_k`. -/
def reciprocalRankFusion (k fusionTopK : Nat) (dense sparse : List String) :
    List (String × ℚ) :=
  (sortPairsDesc (rrfScores k dense sparse)).take fusionTopK

/-! ### Index construction (retriever.py, `HybridRetriever._build_bm25_index`) -/

/-- `HybridRetriever._build_bm25_index` (retriever.py lines 131-160).  The
scroll over the vector store either yields the full `(id, text)` corpus or
raises; the `except` clause swallows the exception (printing a warning), so
construction returns normally with the index as built so far — empty when
the store was unreachable from the start.  `__init__` (lines 105-129) never
re-raises. -/
def buildBM25Index (scroll : Except String (List (String × String))) : BM25Index :=
  match scroll with
  | .ok docs => docs.foldl (fun idx p => addDocument idx p.1 p.2) BM25Index.empty
  | .error _ => BM25Index.empty

/-- A concrete stand-in for `math.log` satisfying positivity on `(1, ∞)`,
used to instantiate closed evaluations. -/
def logStub (x : ℚ) : ℚ := x - 1

/-- The per-rank update list a single ranked id list feeds into the fused
scores dict: id at 0-based position `i` carries `1 / (k + i + 1)`. -/
def rrfUpdates (k : Nat) (l : List String) : List (String × ℚ) :=
  l.enum.map (fun p => (p.2, 1 / ((k : ℚ) + ((p.1 : ℚ) + 1))))

/-- The fused-score contribution of one input list to one id under RRF:
`1 / (k + rank)` at the id's 1-based rank, `0` if the id is absent. -/
def rrfContrib (k : Nat) (l : List String) (i : String) : ℚ :=
  if i ∈ l then 1 / ((k : ℚ) + ((l.indexOf i : ℚ) + 1)) else 0

/-! ### Concrete corpora for closed evaluations -/

/-- Two single-token documents, inserted `d1` then `d2`; `d1` matches the
second query token and `d2` the first. -/
def cxDocs : List (String × String) := [("d1", "b"), ("d2", "a")]

/-- The index built from `cxDocs`. -/
def cxIndex : BM25Index := buildBM25Index (Except.ok cxDocs)

def cxQuery : String := "a b"

/-- The state of `cxIndex` with its average length evaluated: two one-token
documents, `avg_doc_length = 1`. -/
def cxIndexNF : BM25Index :=
  { k1 := 3 / 2
    b := 3 / 4
    documents := [("d1", ["b"]), ("d2", ["a"])]
    doc_lengths := [("d1", 1), ("d2", 1)]
    avg_doc_length := 1
    doc_freqs := [("b", 1), ("a", 1)]
    inverted_index := [("b", ["d1"]), ("a", ["d2"])]
    N := 2 }

def errMsg : String := "vector store unreachable"

def c2Query : String := "postgresql database"

/-! ### A three-document corpus with a repeated term (for C8) -/

def tTok : String := "t"

def c8Query : String := "t"

def c8D1 : String := "d1"

def c8D2 : String := "d2"

/-- `d1` contains the query term twice, `d2` once; both have length 3. -/
def c8Tok1 : List String := [tTok, tTok, strB]

def c8Tok2 : List String := [tTok, strA, strB]

def c8Tok3 : List String := [strA, strA, strA]

def c8TokOf (d : String) : List String :=
  if d = c8D1 then c8Tok1 else if d = c8D2 then c8Tok2 else []

/-- The index state after adding `d1`, `d2`, `d3` (lengths 3 each, so
`avg_doc_length = 3`), with `k1 = 2` and `b = 0` for an integral witness. -/
def c8Index : BM25Index :=
  { k1 := 2
    b := 0
    documents := [("d1", c8Tok1), ("d2", c8Tok2), ("d3", c8Tok3)]
    doc_lengths := [("d1", 3), ("d2", 3), ("d3", 3)]
    avg_doc_length := 3
    doc_freqs := [(tTok, 2), (strB, 2), (strA, 2)]
    inverted_index := [(tTok, ["d1", "d2"]), (strB, ["d1", "d2"]), (strA, ["d2", "d3"])]
    N := 3 }

/-! ### Basic lemmas about the bubble pass -/

theorem bubblePass_length (oracle : Oracle σ α) :
    ∀ (s : σ) (l : List α), ((bubblePass oracle s l).1).length = l.length := by
  intro s l
  induction l generalizing s with
  | nil => simp [bubblePass]
  | cons a tl ih =>
    cases tl with
    | nil => simp [bubblePass]
    | cons b rest =>
      rcases hb : bubblePass oracle s (b :: rest) with ⟨l1, s1, n⟩
      have hlen := ih s
      rw [hb] at hlen
      cases l1 with
      | nil => simp at hlen
      | cons c tl2 =>
        simp only [List.length_cons] at hlen
        simp only [bubblePass, hb]
        split <;> simp [hlen]

theorem bubblePass_perm (oracle : Oracle σ α) :
    ∀ (s : σ) (l : List α), List.Perm ((bubblePass oracle s l).1) l := by
  intro s l
  induction l generalizing s with
  | nil => simp [bubblePass]
  | cons a tl ih =>
    cases tl with
    | nil => simp [bubblePass]
    | cons b rest =>
      rcases hb : bubblePass oracle s (b :: rest) with ⟨l1, s1, n⟩
      have hperm := ih s
      rw [hb] at hperm
      cases l1 with
      | nil => exact absurd hperm.length_eq (by simp)
      | cons c tl2 =>
        simp only [bubblePass, hb]
        split
        · exact (List.Perm.swap a c tl2).trans (hperm.cons a)
        · exact hperm.cons a

theorem bubblePass_calls (oracle : Oracle σ α) :
    ∀ (s : σ) (l : List α), (bubblePass oracle s l).2.2 = l.length - 1 := by
  intro s l
  induction l generalizing s with
  | nil => simp [bubblePass]
  | cons a tl ih =>
    cases tl with
    | nil => simp [bubblePass]
    | cons b rest =>
      rcases hb : bubblePass oracle s (b :: rest) with ⟨l1, s1, n⟩
      have hn := ih s
      have hlen := bubblePass_length oracle s (b :: rest)
      rw [hb] at hn hlen
      cases l1 with
      | nil => simp at hlen
      | cons c tl2 =>
        simp only at hn
        simp only [bubblePass, hb]
        split <;> simp [hn]

theorem bubblePasses_length (oracle : Oracle σ α) (p : Nat) :
    ∀ (s : σ) (l : List α), ((bubblePasses oracle p s l).1).length = l.length := by
  induction p with
  | zero => intro s l; simp [bubblePasses]
  | succ q ih =>
    intro s l
    simp only [bubblePasses]
    rw [ih, bubblePass_length]

theorem bubblePasses_perm (oracle : Oracle σ α) (p : Nat) :
    ∀ (s : σ) (l : List α), List.Perm ((bubblePasses oracle p s l).1) l := by
  induction p with
  | zero => intro s l; simp [bubblePasses]
  | succ q ih =>
    intro s l
    simp only [bubblePasses]
    exact (ih _ _).trans (bubblePass_perm oracle s l)

theorem bubblePasses_calls (oracle : Oracle σ α) (p : Nat) :
    ∀ (s : σ) (l : List α), (bubblePasses oracle p s l).2.2 = p * (l.length - 1) := by
  induction p with
  | zero => intro s l; simp [bubblePasses]
  | succ q ih =>
    intro s l
    simp only [bubblePasses]
    rw [ih, bubblePass_calls, bubblePass_length, Nat.succ_mul, Nat.add_comm]

/-! ### Pure-oracle reduction -/

theorem bubblePass_pureOracle (f : α → α → String) :
    ∀ (s : Unit) (l : List α), bubblePass (pureOracle f) s l = (purePass f l, s, l.length - 1) := by
  intro s l
  induction l generalizing s with
  | nil => simp [bubblePass, purePass]
  | cons a tl ih =>
    cases tl with
    | nil => simp [bubblePass, purePass]
    | cons b rest =>
      have hb := ih s
      have hlen : (purePass f (b :: rest)).length = (b :: rest).length := by
        have := bubblePass_length (pureOracle f) s (b :: rest)
        rw [hb] at this
        exact this
      cases hp : purePass f (b :: rest) with
      | nil => rw [hp] at hlen; simp at hlen
      | cons c tl2 =>
        rw [hp] at hb
        simp only [bubblePass, purePass, hb, hp, pureOracle]
        split <;> simp

theorem bubblePasses_pureOracle (f : α → α → String) (p : Nat) :
    ∀ (s : Unit) (l : List α),
      (bubblePasses (pureOracle f) p s l).1 = purePassN f p l := by
  induction p with
  | zero => intro s l; simp [bubblePasses, purePassN]
  | succ q ih =>
    intro s l
    simp only [bubblePasses, purePassN, bubblePass_pureOracle]
    exact ih _ _

theorem purePass_length (f : α → α → String) (l : List α) :
    (purePass f l).length = l.length := by
  have := bubblePass_length (pureOracle f) () l
  rw [bubblePass_pureOracle] at this
  exact this

theorem purePass_perm (f : α → α → String) (l : List α) : List.Perm (purePass f l) l := by
  have := bubblePass_perm (pureOracle f) () l
  rw [bubblePass_pureOracle] at this
  exact this

theorem purePassN_succ_out (f : α → α → String) (p : Nat) :
    ∀ l : List α, purePassN f (p + 1) l = purePass f (purePassN f p l) := by
  induction p with
  | zero => intro l; simp [purePassN]
  | succ q ih =>
    intro l
    calc purePassN f (q + 1 + 1) l = purePassN f (q + 1) (purePass f l) := by
          simp [purePassN]
      _ = purePass f (purePassN f (q + 1) l) := by
          rw [ih (purePass f l)]; simp [purePassN]

theorem purePassN_perm (f : α → α → String) (p : Nat) (l : List α) :
    List.Perm (purePassN f p l) l := by
  induction p with
  | zero => simp [purePassN]
  | succ q ih => rw [purePassN_succ_out]; exact (purePass_perm f _).trans ih

/-! ### Ground-truth comparator lemmas -/

theorem parseChoice_strA : parseChoice (some strA) = strA := by decide

theorem parseChoice_strB : parseChoice (some strB) = strB := by decide

theorem strA_ne_strB : strA ≠ strB := by decide

theorem parseChoice_gtFun [LinearOrder α] (a b : α) :
    (parseChoice (some (gtFun a b)) = strB) ↔ b < a := by
  unfold gtFun
  by_cases h : b < a
  · simp [h, parseChoice_strB]
  · simp [h, parseChoice_strA, strA_ne_strB]

/-- After one ground-truth pass on a non-empty list, the head is a minimum
of the whole list. -/
theorem gtPass_head_min [LinearOrder α] :
    ∀ (l : List α) (a : α), ∃ c tl, purePass gtFun (a :: l) = c :: tl ∧
      ∀ x ∈ a :: l, c ≤ x := by
  intro l
  induction l with
  | nil =>
    intro a
    exact ⟨a, [], by simp [purePass], by simp⟩
  | cons b rest ih =>
    intro a
    obtain ⟨c, tl, hpass, hmin⟩ := ih b
    by_cases hca : c < a
    · refine ⟨c, a :: tl, ?_, ?_⟩
      · simp only [purePass, hpass]
        rw [if_pos ((parseChoice_gtFun a c).mpr hca)]
      · intro x hx
        rcases List.mem_cons.mp hx with rfl | hx
        · exact le_of_lt hca
        · exact hmin x hx
    · refine ⟨a, c :: tl, ?_, ?_⟩
      · simp only [purePass, hpass]
        rw [if_neg (fun h => hca ((parseChoice_gtFun a c).mp h))]
      · intro x hx
        rcases List.mem_cons.mp hx with rfl | hx
        · exact le_refl x
        · exact le_trans (le_of_not_lt hca) (hmin x hx)

/-- A ground-truth pass leaves a locked sorted front untouched: if `u` is
sorted and every element of `u` is below every element of `v`, the pass acts
only on `v`. -/
theorem gtPass_append [LinearOrder α] :
    ∀ (u v : List α), u.Sorted (· ≤ ·) → (∀ x ∈ u, ∀ y ∈ v, x ≤ y) →
      purePass gtFun (u ++ v) = u ++ purePass gtFun v := by
  intro u
  induction u with
  | nil => intro v _ _; simp
  | cons x u2 ih =>
    intro v hu huv
    have hx2 : ∀ b ∈ u2, x ≤ b := List.rel_of_sorted_cons hu
    have hu2 : u2.Sorted (· ≤ ·) := hu.of_cons
    have huv2 : ∀ a ∈ u2, ∀ y ∈ v, a ≤ y := fun a ha y hy =>
      huv a (List.mem_cons_of_mem x ha) y hy
    have hih := ih v hu2 huv2
    cases u2 with
    | nil =>
      cases v with
      | nil => simp [purePass]
      | cons y v2 =>
        obtain ⟨c, tl, hpass, hmin⟩ := gtPass_head_min v2 y
        have hcv : c ∈ y :: v2 := (purePass_perm gtFun (y :: v2)).subset (by
          rw [hpass]; exact List.mem_cons_self c tl)
        have hxc : x ≤ c := huv x (List.mem_cons_self x []) c hcv
        simp only [List.nil_append, List.cons_append, purePass, hpass]
        rw [if_neg (fun h => absurd ((parseChoice_gtFun x c).mp h) (not_lt.mpr hxc))]
    | cons z u3 =>
      have hxz : x ≤ z := hx2 z (List.mem_cons_self z u3)
      have hzcons : (z :: u3) ++ v = z :: (u3 ++ v) := by simp
      simp only [List.cons_append] at hih ⊢
      simp only [purePass, hih]
      rw [if_neg (fun h => absurd ((parseChoice_gtFun x z).mp h) (not_lt.mpr hxz))]

/-- After `j` ground-truth passes (`j ≤ n`), the first `j` positions hold the
`j` smallest elements in sorted order, and the remainder is a permutation of
the rest of the sorted list. -/
theorem gtPassN_front [LinearOrder α] :
    ∀ (j : Nat) (l : List α), j ≤ l.length →
      ∃ rest, purePassN gtFun j l = (List.insertionSort (· ≤ ·) l).take j ++ rest ∧
        List.Perm rest ((List.insertionSort (· ≤ ·) l).drop j) := by
  intro j
  induction j with
  | zero =>
    intro l _
    exact ⟨l, by simp [purePassN], by simpa using (List.perm_insertionSort (· ≤ ·) l).symm⟩
  | succ j ih =>
    intro l hj
    set S := List.insertionSort (· ≤ ·) l with hSdef
    have hS : S.Sorted (· ≤ ·) := List.sorted_insertionSort (· ≤ ·) l
    have hSl : List.Perm S l := List.perm_insertionSort (· ≤ ·) l
    have hSlen : S.length = l.length := hSl.length_eq
    obtain ⟨rest, heq, hperm⟩ := ih l (Nat.le_of_succ_le hj)
    have hjlt : j < S.length := by omega
    -- the sorted remainder is non-empty
    rcases hd : S.drop j with _ | ⟨e, d2⟩
    · have : S.length - j = 0 := by
        have := congrArg List.length hd
        simpa using this
      omega
    have hrest : List.Perm rest (e :: d2) := by rw [← hd]; exact hperm
    -- one more pass preserves the locked front and extracts the minimum
    have htake_sorted : (S.take j).Sorted (· ≤ ·) :=
      List.Pairwise.sublist (List.take_sublist j S) hS
    have hcross : ∀ x ∈ S.take j, ∀ y ∈ rest, x ≤ y := by
      intro x hx y hy
      exact List.Sorted.rel_of_mem_take_of_mem_drop hS hx (hperm.subset hy)
    have hlock := gtPass_append (S.take j) rest htake_sorted hcross
    obtain ⟨c, tl, hcpass, hcmin⟩ : ∃ c tl, purePass gtFun rest = c :: tl ∧
        ∀ x ∈ rest, c ≤ x := by
      obtain ⟨r0, rest2, hr⟩ : ∃ r0 rest2, rest = r0 :: rest2 := by
        cases rest with
        | nil => exact absurd hrest.length_eq (by simp)
        | cons a b => exact ⟨a, b, rfl⟩
      rw [hr]
      exact gtPass_head_min rest2 r0
    -- the extracted minimum is the next element of the sorted order
    have hdropSorted : (S.drop j).Sorted (· ≤ ·) :=
      List.Pairwise.sublist (List.drop_sublist j S) hS
    have hemin : ∀ x ∈ e :: d2, e ≤ x := by
      rw [hd] at hdropSorted
      intro x hx
      rcases List.mem_cons.mp hx with rfl | hx
      · exact le_refl x
      · exact List.rel_of_sorted_cons hdropSorted x hx
    have hce : c = e := by
      have hc_mem : c ∈ rest := by
        have : c ∈ purePass gtFun rest := by rw [hcpass]; exact List.mem_cons_self c tl
        exact (purePass_perm gtFun rest).subset this
      have h1 : e ≤ c := hemin c (hrest.subset hc_mem)
      have h2 : c ≤ e := hcmin e (hrest.symm.subset (List.mem_cons_self e d2))
      exact le_antisymm h2 h1
    have htl : List.Perm tl d2 := by
      have : List.Perm (c :: tl) (e :: d2) := by
        rw [← hcpass]
        exact (purePass_perm gtFun rest).trans hrest
      rw [hce] at this
      exact this.cons_inv
    have htakelen : (S.take j).length = j := by
      rw [List.length_take]
      omega
    have htakesucc : S.take (j + 1) = S.take j ++ [e] := by
      conv_lhs => rw [← List.take_append_drop j S]
      rw [List.take_append_eq_append_take]
      rw [List.take_of_length_le (by omega), htakelen, hd]
      norm_num
    have hdropsucc : S.drop (j + 1) = d2 := by
      have : S.drop (j + 1) = (S.drop j).drop 1 := by
        rw [List.drop_drop]
      rw [this, hd]
      simp
    refine ⟨tl, ?_, ?_⟩
    · rw [purePassN_succ_out, heq, hlock, hcpass, hce, htakesucc]
      simp
    · rw [hdropsucc]; exact htl

/-- Mapping the candidate payload out of `rerank`'s scored output. -/
theorem rerank_map_candidate (maxC p : Nat) (oracle : Oracle σ α) (s : σ)
    (cs : List α) :
    ((rerank maxC p oracle s cs).1.map (·.candidate))
      = if cs.length ≤ 1 then cs else (bubblePasses oracle p s (cs.take maxC)).1 := by
  unfold rerank
  split
  · rw [List.map_map]
    exact List.enum_map_snd cs
  · rw [List.map_map]
    exact List.enum_map_snd _

/-- Output length of `rerank` for any oracle behaviour. -/
theorem rerank_length (maxC p : Nat) (oracle : Oracle σ α) (s : σ) (cs : List α) :
    ((rerank maxC p oracle s cs).1).length
      = if cs.length ≤ 1 then cs.length else min maxC cs.length := by
  unfold rerank
  split
  · simp
  · simp [bubblePasses_length]

/-- If a single-character pattern is a list-prefix, the character occurs. -/
theorem contains_of_isPrefixOf_single {c : Char} {l : List Char}
    (h : List.isPrefixOf [c] l = true) : l.contains c = true := by
  cases l with
  | nil => simp [List.isPrefixOf] at h
  | cons x xs =>
    simp only [List.isPrefixOf, Bool.and_eq_true, List.isPrefixOf_nil_left] at h
    have : c = x := by
      have := h.1
      simpa using this
    subst this
    simp [List.contains_cons]

/-! ### Claim theorems for the reranker -/

/-- C1: Bubble-sort partial correctness.  For a candidate list of length
`n ≥ 2` (within the `max_candidates` cap, so nothing is truncated) and the
ground-truth total-order comparator as oracle, after `p = num_passes ≤ n`
back-to-front passes the first `p` positions of `rerank`'s output are
exactly the true top-`p` candidates in true order. -/
theorem rerank_top_p_correct [LinearOrder α] (maxC topK : Nat) (l : List α)
    (h2 : 2 ≤ l.length) (hmax : l.length ≤ maxC) (hp : numPasses topK ≤ l.length) :
    (((rerank maxC (numPasses topK) (pureOracle gtFun) () l).1.map
        (·.candidate)).take (numPasses topK))
      = (List.insertionSort (· ≤ ·) l).take (numPasses topK) := by
  rw [rerank_map_candidate]
  rw [if_neg (by omega)]
  rw [List.take_of_length_le hmax]
  rw [bubblePasses_pureOracle]
  obtain ⟨rest, heq, _⟩ := gtPassN_front (numPasses topK) l hp
  rw [heq]
  have hlen : ((List.insertionSort (· ≤ ·) l).take (numPasses topK)).length
      = numPasses topK := by
    rw [List.length_take]
    have := (List.perm_insertionSort (· ≤ ·) l).length_eq
    omega
  exact List.take_left' hlen

/-- C1 counterexample: for a candidate list longer than the default
`max_candidates = 20` cap, the top-`p` guarantee fails on the full input
list even with the perfect ground-truth oracle: 21 candidates `[1..20, 0]`
put the true best item (`0`) beyond the cap, so it is dropped before any
pass and the first positions of the output cannot match the true top-`p`. -/
theorem rerank_top_p_fails_beyond_cap :
    (((rerank defaultMaxCandidates (numPasses defaultTopKResults) (pureOracle gtFun) ()
        ((List.range 20).map (fun i => i + 1) ++ [0])).1.map (·.candidate)).take
          (numPasses defaultTopKResults))
      ≠ (List.insertionSort (· ≤ ·)
          ((List.range 20).map (fun i => i + 1) ++ [0])).take
            (numPasses defaultTopKResults) := by
  decide

/-- Witness for C1 at a concrete input: `n = 4` candidates, `top_k = 3`,
so `p = 3` passes. -/
theorem rerank_top_p_correct_witness :
    2 ≤ ([3, 1, 4, 2] : List ℕ).length ∧ ([3, 1, 4, 2] : List ℕ).length ≤ 20 ∧
      numPasses 3 ≤ ([3, 1, 4, 2] : List ℕ).length ∧
      (((rerank 20 (numPasses 3) (pureOracle gtFun) () [3, 1, 4, 2]).1.map
          (·.candidate)).take (numPasses 3))
        = (List.insertionSort (· ≤ ·) [3, 1, 4, 2]).take (numPasses 3) :=
  ⟨by decide, by decide, by decide,
    rerank_top_p_correct 20 3 [3, 1, 4, 2] (by decide) (by decide) (by decide)⟩

/-- C3 counterexample: with 21 candidates and the default
`max_candidates = 20` cap, `rerank` returns 20 scored candidates even though
the input has 21 — the output length does not equal the input length, no
matter that every oracle call fails. -/
theorem rerank_output_shorter_than_input :
    ((rerank defaultMaxCandidates (numPasses defaultTopKResults) failingOracle ()
        (List.range 21)).1).length ≠ (List.range 21).length := by
  decide

/-- C3 (amended): oracle-failure resilience up to the `max_candidates` cap.
For every oracle — including ones that raise (`none`) or return garbage on
every call — `rerank` returns normally with exactly
`min(max_candidates, n)` scored candidates (`n` for degenerate inputs of at
most one candidate); a raised comparison parses to `"A"` (no swap), and so
does any response containing neither `A` nor `B` after strip/uppercase. -/
theorem rerank_oracle_failure_resilience (maxC p : Nat) (oracle : Oracle σ α)
    (s : σ) (cs : List α) :
    ((rerank maxC p oracle s cs).1).length
        = (if cs.length ≤ 1 then cs.length else min maxC cs.length)
      ∧ parseChoice none = strA
      ∧ ∀ resp : String, (pyStripUpper resp).contains 'A' = false →
          (pyStripUpper resp).contains 'B' = false → parseChoice (some resp) = strA := by
  refine ⟨rerank_length maxC p oracle s cs, rfl, ?_⟩
  intro resp hA hB
  have hAd : strA.data = ['A'] := rfl
  have hBd : strB.data = ['B'] := rfl
  have h1 : List.isPrefixOf strA.data (pyStripUpper resp) = false := by
    rw [hAd]
    cases hpre : List.isPrefixOf ['A'] (pyStripUpper resp)
    · rfl
    · rw [contains_of_isPrefixOf_single hpre] at hA
      exact Bool.noConfusion hA
  have h2 : List.isPrefixOf strB.data (pyStripUpper resp) = false := by
    rw [hBd]
    cases hpre : List.isPrefixOf ['B'] (pyStripUpper resp)
    · rfl
    · rw [contains_of_isPrefixOf_single hpre] at hB
      exact Bool.noConfusion hB
  have hB' : 'B' ∉ pyStripUpper resp := by simpa using hB
  unfold parseChoice
  simp [hA, hB, h1, h2]
  intro _ hBm
  exact absurd hBm hB'

/-- Consequence of C3's amended statement at a concrete failing oracle. -/
theorem rerank_oracle_failure_resilience_witness :
    ((rerank 20 3 failingOracle () [5, 6, 7]).1).length
        = (if ([5, 6, 7] : List ℕ).length ≤ 1 then ([5, 6, 7] : List ℕ).length
           else min 20 ([5, 6, 7] : List ℕ).length)
      ∧ parseChoice none = strA
      ∧ parseChoice (some (String.mk ['x'])) = strA := by
  have h := rerank_oracle_failure_resilience 20 3 failingOracle () ([5, 6, 7] : List ℕ)
  exact ⟨h.1, h.2.1, h.2.2 (String.mk ['x']) (by decide) (by decide)⟩

/-- C6: exact oracle call count.  With `num_passes = min(top_k_results, 3)`,
`rerank` makes exactly `num_passes * (n' − 1)` oracle calls where `n'` is
the candidate count after truncation to `max_candidates`, and zero calls for
inputs of at most one candidate. -/
theorem rerank_call_count (maxC topKResults : Nat) (oracle : Oracle σ α) (s : σ)
    (cs : List α) :
    (rerank maxC (numPasses topKResults) oracle s cs).2.2
      = if cs.length ≤ 1 then 0
        else numPasses topKResults * ((cs.take maxC).length - 1) := by
  unfold rerank
  split
  · rfl
  · simp [bubblePasses_calls]

/-- C10: rerank output is a permutation of the first `min(n, max_candidates)`
input candidates — none dropped from that truncated front, none duplicated,
none introduced — and for `n > max_candidates` the output is strictly
shorter than the input. -/
theorem rerank_perm_of_truncation (maxC p : Nat) (oracle : Oracle σ α) (s : σ)
    (cs : List α) (hm : 1 ≤ maxC) :
    List.Perm (((rerank maxC p oracle s cs).1).map (·.candidate)) (cs.take maxC)
      ∧ (maxC < cs.length → ((rerank maxC p oracle s cs).1).length < cs.length) := by
  constructor
  · rw [rerank_map_candidate]
    split
    · rw [List.take_of_length_le (by omega)]
    · exact bubblePasses_perm oracle p s (cs.take maxC)
  · intro hlt
    rw [rerank_length]
    rw [if_neg (by omega)]
    omega

/-! ### Scores-dictionary lemmas -/

theorem getScore_cons (k : String) (w : ℚ) (tl : List (String × ℚ)) (i : String) :
    getScore ((k, w) :: tl) i = if k = i then w else getScore tl i := by
  by_cases h : k = i <;> simp [getScore, dictGetD, dictGet?, h]

theorem getScore_addScore (d : List (String × ℚ)) (j : String) (v : ℚ) (i : String) :
    getScore (addScore d j v) i = getScore d i + if i = j then v else 0 := by
  induction d with
  | nil =>
    simp only [addScore, getScore_cons]
    by_cases h : i = j
    · subst h
      simp [getScore, dictGetD, dictGet?]
    · rw [if_neg (fun hh : j = i => h hh.symm), if_neg h]
      simp [getScore, dictGetD, dictGet?]
  | cons p tl ih =>
    rcases p with ⟨k, w⟩
    by_cases hkj : k = j
    · subst hkj
      have ha : addScore ((k, w) :: tl) k v = (k, w + v) :: tl := by
        simp [addScore]
      rw [ha, getScore_cons, getScore_cons]
      by_cases hik : k = i
      · subst hik
        simp
      · rw [if_neg hik, if_neg hik, if_neg (fun hh : i = k => hik hh.symm)]
        simp
    · have ha : addScore ((k, w) :: tl) j v = (k, w) :: addScore tl j v := by
        simp [addScore, hkj]
      rw [ha, getScore_cons, getScore_cons]
      by_cases hik : k = i
      · subst hik
        rw [if_pos rfl, if_pos rfl, if_neg hkj]
        simp
      · rw [if_neg hik, if_neg hik]
        exact ih

theorem dictKeys_addScore (d : List (String × ℚ)) (j : String) (v : ℚ) :
    dictKeys (addScore d j v)
      = if j ∈ dictKeys d then dictKeys d else dictKeys d ++ [j] := by
  induction d with
  | nil => simp [addScore, dictKeys]
  | cons p tl ih =>
    rcases p with ⟨k, w⟩
    by_cases hkj : k = j
    · subst hkj
      simp [addScore, dictKeys]
    · simp only [addScore, if_neg hkj]
      have hl : dictKeys ((k, w) :: addScore tl j v) = k :: dictKeys (addScore tl j v) := rfl
      have hd : dictKeys ((k, w) :: tl) = k :: dictKeys tl := rfl
      rw [hl, ih, hd]
      by_cases hj : j ∈ dictKeys tl
      · rw [if_pos hj, if_pos (List.mem_cons_of_mem k hj)]
      · have hnot : j ∉ k :: dictKeys tl := by
          intro hmem
          rcases List.mem_cons.mp hmem with h1 | h1
          · exact hkj h1.symm
          · exact hj h1
        rw [if_neg hj, if_neg hnot]
        simp

theorem mem_dictKeys_addScore (d : List (String × ℚ)) (j : String) (v : ℚ)
    (i : String) :
    i ∈ dictKeys (addScore d j v) ↔ i ∈ dictKeys d ∨ i = j := by
  rw [dictKeys_addScore]
  split
  · constructor
    · exact fun h => Or.inl h
    · rintro (h | rfl)
      · exact h
      · assumption
  · simp

theorem nodup_dictKeys_addScore (d : List (String × ℚ)) (j : String) (v : ℚ)
    (h : (dictKeys d).Nodup) : (dictKeys (addScore d j v)).Nodup := by
  rw [dictKeys_addScore]
  split
  · exact h
  · simp [List.nodup_append, h, *]

theorem snd_eq_getScore_of_nodup (d : List (String × ℚ))
    (h : (dictKeys d).Nodup) : ∀ p ∈ d, p.2 = getScore d p.1 := by
  induction d with
  | nil => intro p hp; simp at hp
  | cons q tl ih =>
    rcases q with ⟨k, w⟩
    have hk : k ∉ dictKeys tl := by
      simp [dictKeys] at h
      intro hc
      exact absurd hc (by simpa [dictKeys] using h.1)
    intro p hp
    rcases List.mem_cons.mp hp with rfl | hp
    · simp [getScore_cons]
    · have hne : k ≠ p.1 := by
        intro hh
        exact hk (by rw [hh]; exact List.mem_map_of_mem Prod.fst hp)
      rw [getScore_cons, if_neg hne]
      exact ih (by simpa [dictKeys] using (List.nodup_cons.mp (by simpa [dictKeys] using h)).2) p hp

theorem mem_of_mem_dictKeys (d : List (String × ℚ)) (i : String)
    (h : i ∈ dictKeys d) : (i, getScore d i) ∈ d := by
  induction d with
  | nil => simp [dictKeys] at h
  | cons q tl ih =>
    rcases q with ⟨k, w⟩
    by_cases hki : k = i
    · subst hki
      simp [getScore_cons]
    · have : i ∈ dictKeys tl := by
        rcases by simpa [dictKeys] using h with h1 | h1
        · exact absurd h1.symm hki
        · simpa [dictKeys] using h1
      rw [getScore_cons, if_neg hki]
      exact List.mem_cons_of_mem _ (ih this)

theorem getScore_applyUpdates (us : List (String × ℚ)) :
    ∀ (m0 : List (String × ℚ)) (i : String),
      getScore (applyUpdates m0 us) i
        = getScore m0 i + ((us.filter (fun u => decide (u.1 = i))).map Prod.snd).sum := by
  induction us with
  | nil => intro m0 i; simp [applyUpdates]
  | cons u tl ih =>
    intro m0 i
    have : applyUpdates m0 (u :: tl) = applyUpdates (addScore m0 u.1 u.2) tl := rfl
    rw [this, ih, getScore_addScore]
    by_cases h : u.1 = i
    · simp [h, List.filter_cons]
      ring
    · have h2 : ¬ i = u.1 := fun hh => h hh.symm
      simp [h, h2, List.filter_cons]

theorem mem_dictKeys_applyUpdates (us : List (String × ℚ)) :
    ∀ (m0 : List (String × ℚ)) (i : String),
      i ∈ dictKeys (applyUpdates m0 us)
        ↔ i ∈ dictKeys m0 ∨ i ∈ us.map Prod.fst := by
  induction us with
  | nil => intro m0 i; simp [applyUpdates]
  | cons u tl ih =>
    intro m0 i
    have : applyUpdates m0 (u :: tl) = applyUpdates (addScore m0 u.1 u.2) tl := rfl
    rw [this, ih, mem_dictKeys_addScore]
    simp [or_assoc, or_comm, or_left_comm]

theorem nodup_dictKeys_applyUpdates (us : List (String × ℚ)) :
    ∀ (m0 : List (String × ℚ)), (dictKeys m0).Nodup →
      (dictKeys (applyUpdates m0 us)).Nodup := by
  induction us with
  | nil => intro m0 h; exact h
  | cons u tl ih =>
    intro m0 h
    exact ih _ (nodup_dictKeys_addScore m0 u.1 u.2 h)

theorem addScore_fresh (d : List (String × ℚ)) (j : String) (v : ℚ)
    (h : j ∉ dictKeys d) : addScore d j v = d ++ [(j, v)] := by
  induction d with
  | nil => rfl
  | cons q tl ih =>
    rcases q with ⟨k, w⟩
    have hkj : k ≠ j := by
      intro hh
      exact h (by simp [dictKeys, hh])
    simp only [addScore, if_neg hkj, List.cons_append, List.cons.injEq, true_and]
    exact ih (fun hc => h (by simp [dictKeys] at hc ⊢; exact Or.inr hc))

theorem applyUpdates_fresh (us : List (String × ℚ)) :
    ∀ (m0 : List (String × ℚ)), (∀ u ∈ us, u.1 ∉ dictKeys m0) →
      (us.map Prod.fst).Nodup → applyUpdates m0 us = m0 ++ us := by
  induction us with
  | nil => intro m0 _ _; simp [applyUpdates]
  | cons u tl ih =>
    intro m0 hfresh hnd
    have h1 : addScore m0 u.1 u.2 = m0 ++ [u] :=
      addScore_fresh m0 u.1 u.2 (hfresh u (List.mem_cons_self u tl))
    have hnd2 : u.1 ∉ List.map Prod.fst tl ∧ (List.map Prod.fst tl).Nodup := by
      rw [List.map_cons] at hnd
      exact List.nodup_cons.mp hnd
    have hfresh2 : ∀ w ∈ tl, w.1 ∉ dictKeys (m0 ++ [u]) := by
      intro w hw
      have hw1 : w.1 ∉ dictKeys m0 := hfresh w (List.mem_cons_of_mem u hw)
      have hw2 : w.1 ≠ u.1 := by
        intro hh
        exact hnd2.1 (hh ▸ List.mem_map_of_mem Prod.fst hw)
      have hkeys : dictKeys (m0 ++ [u]) = dictKeys m0 ++ [u.1] := by
        simp [dictKeys]
      rw [hkeys]
      intro hmem
      rcases List.mem_append.mp hmem with h1 | h1
      · exact hw1 h1
      · exact hw2 (by simpa using h1)
    have hstep : applyUpdates m0 (u :: tl) = applyUpdates (addScore m0 u.1 u.2) tl := rfl
    rw [hstep, h1, ih (m0 ++ [u]) hfresh2 hnd2.2]
    simp

/-! ### Search plumbing -/

theorem search_eq (log : ℚ → ℚ) (idx : BM25Index) (query : String) (topK : Nat) :
    search log idx query topK
      = (bm25Accumulate log idx query).map (fun sc => (sortPairsDesc sc).take topK) := by
  unfold search
  cases bm25Accumulate log idx query <;> rfl

theorem bm25Accumulate_empty_index (log : ℚ → ℚ) (query : String) :
    bm25Accumulate log BM25Index.empty query = some [] := by
  unfold bm25Accumulate
  suffices h : ∀ (ts : List String) (acc : List (String × ℚ)),
      ts.foldlM (bm25TokenStep log BM25Index.empty) acc = some acc from h _ []
  intro ts
  induction ts with
  | nil => intro acc; rfl
  | cons t ts ih =>
    intro acc
    rw [List.foldlM_cons]
    have hstep : bm25TokenStep log BM25Index.empty acc t = some acc := rfl
    rw [hstep]
    simpa using ih acc

theorem search_empty_index (log : ℚ → ℚ) (q : String) (topK : Nat) :
    search log BM25Index.empty q topK = some [] := by
  rw [search_eq, bm25Accumulate_empty_index]
  simp [sortPairsDesc, List.insertionSort]

/-! ### Stability of the descending sort -/

theorem filter_orderedInsert (q : ℚ) (x : String × ℚ) :
    ∀ (l : List (String × ℚ)), l.Sorted scoreGe →
      (List.orderedInsert scoreGe x l).filter (fun p => decide (p.2 = q))
        = if x.2 = q then x :: l.filter (fun p => decide (p.2 = q))
          else l.filter (fun p => decide (p.2 = q)) := by
  intro l
  induction l with
  | nil =>
    intro _
    by_cases h : x.2 = q <;> simp [List.orderedInsert, List.filter_cons, h]
  | cons b t ih =>
    intro hs
    have hsplit : List.orderedInsert scoreGe x (b :: t)
        = if scoreGe x b then x :: b :: t else b :: List.orderedInsert scoreGe x t := rfl
    rw [hsplit]
    by_cases hr : scoreGe x b
    · rw [if_pos hr]
      by_cases hx : x.2 = q <;> simp [List.filter_cons, hx]
    · rw [if_neg hr]
      have hxb : x.2 < b.2 := lt_of_not_le (fun hh => hr hh)
      have ht : t.Sorted scoreGe := hs.of_cons
      by_cases hx : x.2 = q
      · have hbq : ¬ (b.2 = q) := by
          intro hh
          rw [hx, hh] at hxb
          exact lt_irrefl q hxb
        simp [List.filter_cons, hbq, ih ht, hx]
      · simp [List.filter_cons, ih ht, hx]

/-- The Python sort is stable: within each score level, `sortPairsDesc`
preserves the relative order of the input. -/
theorem sortPairsDesc_stable (q : ℚ) (l : List (String × ℚ)) :
    (sortPairsDesc l).filter (fun p => decide (p.2 = q))
      = l.filter (fun p => decide (p.2 = q)) := by
  induction l with
  | nil => rfl
  | cons x t ih =>
    have hstep : sortPairsDesc (x :: t)
        = List.orderedInsert scoreGe x (sortPairsDesc t) := rfl
    rw [hstep,
      filter_orderedInsert q x (sortPairsDesc t) (List.sorted_insertionSort scoreGe t), ih]
    by_cases hx : x.2 = q <;> simp [List.filter_cons, hx]

/-! ### Claim theorems C2 and C7 -/

/-- C2 counterexample: when the vector-store scroll raises during index
construction, the exception is swallowed — construction returns normally
with an empty index, and a subsequent sparse search serves the query with
zero results instead of surfacing a hard initialization failure. -/
theorem index_build_failure_not_surfaced :
    buildBM25Index (Except.error errMsg) = BM25Index.empty
      ∧ search logStub (buildBM25Index (Except.error errMsg)) c2Query 30 = some [] := by
  refine ⟨rfl, ?_⟩
  rw [show buildBM25Index (Except.error errMsg) = BM25Index.empty from rfl]
  exact search_empty_index logStub c2Query 30

/-- C2 (amended): if building the sparse index fails, `_build_bm25_index`
catches the exception, logs it, and returns normally; the retriever then
serves every query from the empty BM25 index, reporting zero sparse results
— the failure is not surfaced to the caller. -/
theorem index_build_failure_swallowed (e : String) (log : ℚ → ℚ) (q : String)
    (topK : Nat) :
    buildBM25Index (Except.error e) = BM25Index.empty
      ∧ search log (buildBM25Index (Except.error e)) q topK = some [] := by
  refine ⟨rfl, ?_⟩
  rw [show buildBM25Index (Except.error e) = BM25Index.empty from rfl]
  exact search_empty_index log q topK

/-- C7: BM25 zero-corpus safety.  Searching an index containing zero
documents returns the empty list for every query and every `top_k`, raising
neither a division-by-zero (`avg_doc_length = 0` is never used as a divisor
because the accumulation loop body never runs) nor any other exception. -/
theorem bm25_zero_corpus_safe (log : ℚ → ℚ) (query : String) (topK : Nat) :
    search log BM25Index.empty query topK = some [] :=
  search_empty_index log query topK

/-! ### The two-document tie corpus -/

theorem cxIndex_eq_NF : cxIndex = cxIndexNF := by
  have h1 : cxIndex.k1 = cxIndexNF.k1 := rfl
  have h2 : cxIndex.b = cxIndexNF.b := rfl
  have h3 : cxIndex.documents = cxIndexNF.documents := by decide
  have h4 : cxIndex.doc_lengths = cxIndexNF.doc_lengths := by decide
  have h5 : cxIndex.avg_doc_length = cxIndexNF.avg_doc_length := by
    have hh : cxIndex.avg_doc_length =
        ((([("d1", 1), ("d2", 1)] : List (String × Nat)).map
          (fun p => (p.2 : ℚ))).sum) / ((2 : Nat) : ℚ) := rfl
    rw [hh]
    show ((((1 : Nat) : ℚ)) + (((1 : Nat) : ℚ) + 0)) / ((2 : Nat) : ℚ) = 1
    norm_num
  have h6 : cxIndex.doc_freqs = cxIndexNF.doc_freqs := by decide
  have h7 : cxIndex.inverted_index = cxIndexNF.inverted_index := by decide
  have h8 : cxIndex.N = cxIndexNF.N := by decide
  cases hc : cxIndex
  cases hn : cxIndexNF
  rw [hc, hn] at h1 h2 h3 h4 h5 h6 h7 h8
  simp_all

/-- Both documents of the tie corpus accumulate exactly the same BM25 score,
and the scores dict lists `d2` first (first-contribution order, from the
query-token order), although `d1` was inserted first. -/
theorem cxAccumulate :
    bm25Accumulate logStub cxIndex cxQuery = some [("d2", 1), ("d1", 1)] := by
  rw [cxIndex_eq_NF]
  have htok : tokenize cxQuery = ["a", "b"] := by decide
  simp only [bm25Accumulate, htok, List.foldlM_cons, List.foldlM_nil]
  simp [bm25TokenStep, cxIndexNF, dictGet?, bm25Idf, dictGetD, bm25InnerStep,
    bm25Contrib, checkedDiv, checkedLog, logStub, addScore, Option.bind]
  norm_num
  decide

/-- C5 counterexample: in the index built by inserting `d1` (text `"b"`) and
then `d2` (text `"a"`), the query `"a b"` gives both documents exactly equal
BM25 scores, yet the search output lists `d2` before `d1` — equal-score
documents do *not* appear in insertion/document-id order.  The tie order
follows the scores-dict first-contribution order (query-token order, then
posting iteration order), and is independent of Python's set iteration here
because both posting sets are singletons. -/
theorem bm25_ties_not_insertion_order :
    search logStub cxIndex cxQuery 30 = some [("d2", (1 : ℚ)), ("d1", 1)]
      ∧ cxDocs.map Prod.fst = ["d1", "d2"]
      ∧ [("d2", (1 : ℚ)), ("d1", 1)].map Prod.fst ≠ cxDocs.map Prod.fst := by
  refine ⟨?_, by decide, by decide⟩
  rw [search_eq, cxAccumulate]
  decide

/-- C5 (amended): `BM25Index.search` sorts the accumulated scores with a
sort that is stable with respect to the accumulation order of the scores
dict — the order in which documents first receive a contribution (query
token order, then posting-set iteration order) — and truncates afterwards;
ties are broken by that first-contribution order, which does not in general
equal document insertion order. -/
theorem bm25_sort_stable_wrt_accumulation (log : ℚ → ℚ) (idx : BM25Index)
    (query : String) (topK : Nat) (acc : List (String × ℚ)) (q : ℚ)
    (hacc : bm25Accumulate log idx query = some acc) :
    search log idx query topK = some ((sortPairsDesc acc).take topK)
      ∧ (sortPairsDesc acc).Sorted scoreGe
      ∧ (sortPairsDesc acc).filter (fun p => decide (p.2 = q))
          = acc.filter (fun p => decide (p.2 = q)) := by
  refine ⟨?_, List.sorted_insertionSort scoreGe acc, sortPairsDesc_stable q acc⟩
  rw [search_eq, hacc]
  rfl

/-! ### Reciprocal rank fusion lemmas -/

theorem rrfScores_eq (k : Nat) (dense sparse : List String) :
    rrfScores k dense sparse
      = applyUpdates (applyUpdates [] (rrfUpdates k dense)) (rrfUpdates k sparse) := by
  unfold rrfScores rrfUpdates applyUpdates
  rw [List.foldl_map, List.foldl_map]

theorem rrfUpdates_keys (k : Nat) (l : List String) :
    (rrfUpdates k l).map Prod.fst = l := by
  unfold rrfUpdates
  rw [List.map_map]
  exact List.enum_map_snd l

theorem rrfUpdates_filter_sum (k : Nat) (i : String) :
    ∀ (l : List String) (st : Nat), l.Nodup →
      (((((l.enumFrom st).map
            (fun p => (p.2, 1 / ((k : ℚ) + ((p.1 : ℚ) + 1))))).filter
          (fun u => decide (u.1 = i))).map Prod.snd).sum
        = if i ∈ l then 1 / ((k : ℚ) + (((st + l.indexOf i : Nat) : ℚ) + 1))
          else 0) := by
  intro l
  induction l with
  | nil => intro st _; simp
  | cons a tl ih =>
    intro st hnd
    rcases List.nodup_cons.mp hnd with ⟨ha, htl⟩
    rw [List.enumFrom_cons]
    by_cases hai : a = i
    · subst hai
      have htail := ih (st + 1) htl
      rw [if_neg ha] at htail
      simp only [List.map_cons, List.filter_cons, decide_eq_true_eq,
        eq_self_iff_true, if_true, List.sum_cons]
      rw [htail, if_pos (List.mem_cons_self a tl), List.indexOf_cons_self]
      push_cast
      ring
    · have htail := ih (st + 1) htl
      simp only [List.map_cons, List.filter_cons, decide_eq_true_eq, if_neg hai]
      rw [htail]
      by_cases hmem : i ∈ tl
      · rw [if_pos hmem, if_pos (List.mem_cons_of_mem a hmem)]
        have hidx : (a :: tl).indexOf i = tl.indexOf i + 1 := by
          rw [List.indexOf_cons_ne tl hai]
        rw [hidx]
        push_cast
        ring
      · have hno : i ∉ a :: tl := by
          intro hc
          rcases List.mem_cons.mp hc with h1 | h1
          · exact hai h1.symm
          · exact hmem h1
        rw [if_neg hmem, if_neg hno]

theorem getScore_rrfScores (k : Nat) (dense sparse : List String)
    (hd : dense.Nodup) (hs : sparse.Nodup) (i : String) :
    getScore (rrfScores k dense sparse) i
      = rrfContrib k dense i + rrfContrib k sparse i := by
  rw [rrfScores_eq, getScore_applyUpdates, getScore_applyUpdates]
  have h0 : getScore [] i = 0 := rfl
  rw [h0]
  have hform : ∀ (l : List String), l.Nodup →
      ((((rrfUpdates k l).filter (fun u => decide (u.1 = i))).map Prod.snd).sum)
        = rrfContrib k l i := by
    intro l hl
    have := rrfUpdates_filter_sum k i l 0 hl
    unfold rrfUpdates
    rw [show l.enum = l.enumFrom 0 from rfl, this]
    unfold rrfContrib
    split
    · norm_num
    · rfl
  rw [hform dense hd, hform sparse hs]
  ring

theorem mem_dictKeys_rrfScores (k : Nat) (dense sparse : List String) (i : String) :
    i ∈ dictKeys (rrfScores k dense sparse) ↔ i ∈ dense ∨ i ∈ sparse := by
  rw [rrfScores_eq, mem_dictKeys_applyUpdates, mem_dictKeys_applyUpdates]
  rw [rrfUpdates_keys, rrfUpdates_keys]
  simp [dictKeys]

theorem nodup_dictKeys_rrfScores (k : Nat) (dense sparse : List String) :
    (dictKeys (rrfScores k dense sparse)).Nodup := by
  rw [rrfScores_eq]
  exact nodup_dictKeys_applyUpdates _ _
    (nodup_dictKeys_applyUpdates _ _ (by simp [dictKeys]))

theorem rrfScores_left_only (k : Nat) (L : List String) (hnd : L.Nodup) :
    rrfScores k L [] = rrfUpdates k L ∧ rrfScores k [] L = rrfUpdates k L := by
  have hfresh : ∀ u ∈ rrfUpdates k L, u.1 ∉ dictKeys ([] : List (String × ℚ)) := by
    intro u _
    simp [dictKeys]
  have hkeys : ((rrfUpdates k L).map Prod.fst).Nodup := by
    rw [rrfUpdates_keys]; exact hnd
  have happ : applyUpdates [] (rrfUpdates k L) = rrfUpdates k L := by
    rw [applyUpdates_fresh (rrfUpdates k L) [] hfresh hkeys]
    rfl
  constructor
  · rw [rrfScores_eq]
    have hnilu : rrfUpdates k ([] : List String) = [] := rfl
    rw [hnilu]
    have : applyUpdates (applyUpdates [] (rrfUpdates k L)) [] =
        applyUpdates [] (rrfUpdates k L) := rfl
    rw [this, happ]
  · rw [rrfScores_eq]
    have hnilu : rrfUpdates k ([] : List String) = [] := rfl
    rw [hnilu]
    have : applyUpdates ([] : List (String × ℚ)) ([] : List (String × ℚ))
        = ([] : List (String × ℚ)) := rfl
    rw [show applyUpdates (applyUpdates [] ([] : List (String × ℚ)))
        (rrfUpdates k L) = applyUpdates [] (rrfUpdates k L) from rfl, happ]

theorem rrfUpdates_sorted (k : Nat) (l : List String) :
    (rrfUpdates k l).Sorted scoreGe := by
  suffices h : ∀ (st : Nat),
      (((l.enumFrom st).map
        (fun p => (p.2, 1 / ((k : ℚ) + ((p.1 : ℚ) + 1))))).Sorted scoreGe) by
    unfold rrfUpdates
    rw [show l.enum = l.enumFrom 0 from rfl]
    exact h 0
  induction l with
  | nil => intro st; simp
  | cons a tl ih =>
    intro st
    rw [List.enumFrom_cons, List.map_cons, List.sorted_cons]
    refine ⟨?_, ih (st + 1)⟩
    intro b hb
    rcases List.mem_map.mp hb with ⟨p, hp, rfl⟩
    have hbound := (List.mem_enumFrom hp).1
    show (1 : ℚ) / ((k : ℚ) + ((p.1 : ℚ) + 1)) ≤ 1 / ((k : ℚ) + ((st : ℚ) + 1))
    have hpos : (0 : ℚ) < (k : ℚ) + ((st : ℚ) + 1) := by positivity
    apply one_div_le_one_div_of_le hpos
    have hb2 : st ≤ p.1 := Nat.le_of_succ_le hbound
    have : (st : ℚ) ≤ (p.1 : ℚ) := by exact_mod_cast hb2
    linarith

/-! ### BM25 scoring lemmas for term-frequency monotonicity -/

/-- The IDF of an indexed term (`1 ≤ df ≤ N`) is defined and positive: the
log argument `(N − df + 0.5)/(df + 0.5) + 1` always exceeds 1. -/
theorem bm25Idf_pos (log : ℚ → ℚ) (idx : BM25Index) (t : String)
    (hlog : ∀ x, 1 < x → 0 < log x)
    (hdf1 : 1 ≤ dictGetD idx.doc_freqs t 0)
    (hdfN : dictGetD idx.doc_freqs t 0 ≤ idx.N) :
    ∃ idfv, bm25Idf log idx t = some idfv ∧ 0 < idfv := by
  set df := dictGetD idx.doc_freqs t 0 with hdf
  have hdf0 : ¬ (df = 0) := by omega
  have hden : ((df : ℚ) + 1 / 2) ≠ 0 := by positivity
  have hnum : (0 : ℚ) < (idx.N : ℚ) - (df : ℚ) + 1 / 2 := by
    have : (df : ℚ) ≤ (idx.N : ℚ) := by exact_mod_cast hdfN
    linarith
  have hq : (0 : ℚ) < ((idx.N : ℚ) - (df : ℚ) + 1 / 2) / ((df : ℚ) + 1 / 2) := by
    apply div_pos hnum
    positivity
  have harg : (1 : ℚ) < ((idx.N : ℚ) - (df : ℚ) + 1 / 2) / ((df : ℚ) + 1 / 2) + 1 := by
    linarith
  refine ⟨log (((idx.N : ℚ) - (df : ℚ) + 1 / 2) / ((df : ℚ) + 1 / 2) + 1), ?_,
    hlog _ harg⟩
  unfold bm25Idf
  rw [← hdf, if_neg hdf0]
  rw [show checkedDiv ((idx.N : ℚ) - (df : ℚ) + 1 / 2) ((df : ℚ) + 1 / 2)
      = some (((idx.N : ℚ) - (df : ℚ) + 1 / 2) / ((df : ℚ) + 1 / 2)) from by
    unfold checkedDiv; rw [if_neg hden]]
  show checkedLog log (((idx.N : ℚ) - (df : ℚ) + 1 / 2) / ((df : ℚ) + 1 / 2) + 1) = _
  unfold checkedLog
  rw [if_neg (by linarith)]

/-- Evaluation of the per-document contribution when neither division
raises. -/
theorem bm25Contrib_eval (idx : BM25Index) (idfv : ℚ) (tf dlen : Nat)
    (havg : idx.avg_doc_length ≠ 0)
    (hden : ((tf : ℚ)
        + idx.k1 * (1 - idx.b + idx.b * ((dlen : ℚ) / idx.avg_doc_length))) ≠ 0) :
    bm25Contrib idx idfv tf dlen
      = some (idfv * ((tf : ℚ) * (idx.k1 + 1))
          / ((tf : ℚ)
            + idx.k1 * (1 - idx.b + idx.b * ((dlen : ℚ) / idx.avg_doc_length)))) := by
  unfold bm25Contrib
  rw [show checkedDiv (dlen : ℚ) idx.avg_doc_length
      = some ((dlen : ℚ) / idx.avg_doc_length) from by
    unfold checkedDiv; rw [if_neg havg]]
  show checkedDiv (idfv * ((tf : ℚ) * (idx.k1 + 1)))
      ((tf : ℚ) + idx.k1 * (1 - idx.b + idx.b * ((dlen : ℚ) / idx.avg_doc_length))) = _
  unfold checkedDiv
  rw [if_neg hden]

/-- Strict monotonicity of the BM25 contribution in the term frequency, at
equal document length, positive IDF and the default-style parameters
`k1 > 0`, `0 ≤ b < 1`. -/
theorem bm25Contrib_mono (idx : BM25Index) (idfv : ℚ) (tf1 tf2 dlen : Nat)
    (hidf : 0 < idfv) (havg : 0 < idx.avg_doc_length) (hk1 : 0 < idx.k1)
    (hb0 : 0 ≤ idx.b) (hb1 : idx.b < 1) (htf2 : 1 ≤ tf2) (hlt : tf2 < tf1) :
    ∃ c1 c2, bm25Contrib idx idfv tf1 dlen = some c1
      ∧ bm25Contrib idx idfv tf2 dlen = some c2 ∧ c2 < c1 := by
  have hdlr0 : (0 : ℚ) ≤ (dlen : ℚ) / idx.avg_doc_length :=
    div_nonneg (by positivity) (le_of_lt havg)
  set dlr := (dlen : ℚ) / idx.avg_doc_length with hdlr
  have hfac : 0 < 1 - idx.b + idx.b * dlr := by nlinarith
  have hC : 0 < idx.k1 * (1 - idx.b + idx.b * dlr) := mul_pos hk1 hfac
  set C := idx.k1 * (1 - idx.b + idx.b * dlr) with hCdef
  have htf2q : (1 : ℚ) ≤ (tf2 : ℚ) := by exact_mod_cast htf2
  have hltq : (tf2 : ℚ) < (tf1 : ℚ) := by exact_mod_cast hlt
  have hd2 : (0 : ℚ) < (tf2 : ℚ) + C := by linarith
  have hd1 : (0 : ℚ) < (tf1 : ℚ) + C := by linarith
  refine ⟨_, _, bm25Contrib_eval idx idfv tf1 dlen havg.ne' (by rw [← hdlr, ← hCdef]; linarith),
    bm25Contrib_eval idx idfv tf2 dlen havg.ne' (by rw [← hdlr, ← hCdef]; linarith), ?_⟩
  rw [← hdlr, ← hCdef]
  rw [div_lt_div_iff hd2 hd1]
  have hk11 : (0 : ℚ) < idx.k1 + 1 := by linarith
  nlinarith [mul_pos (mul_pos hidf hk11) (mul_pos hC (by linarith : (0 : ℚ) < (tf1 : ℚ) - (tf2 : ℚ)))]

/-- With distinct keys, filtering the updates list down to one key leaves
exactly the single matching entry. -/
theorem filter_key_single (us : List (String × ℚ)) (d : String) :
    (us.map Prod.fst).Nodup → d ∈ us.map Prod.fst →
      ∃ u, us.filter (fun u => decide (u.1 = d)) = [u] ∧ u ∈ us ∧ u.1 = d := by
  induction us with
  | nil => intro _ hmem; simp at hmem
  | cons u0 tl ih =>
    intro hnd hmem
    rw [List.map_cons] at hnd hmem
    rcases List.nodup_cons.mp hnd with ⟨h0, htl⟩
    by_cases h : u0.1 = d
    · refine ⟨u0, ?_, List.mem_cons_self u0 tl, h⟩
      rw [List.filter_cons, if_pos (by simp [h])]
      have hnone : tl.filter (fun u => decide (u.1 = d)) = [] := by
        rw [List.filter_eq_nil]
        intro w hw
        simp only [decide_eq_true_eq]
        intro hc
        exact h0 (by rw [h, ← hc]; exact List.mem_map_of_mem Prod.fst hw)
      rw [hnone]
    · have hmem2 : d ∈ tl.map Prod.fst := by
        rcases List.mem_cons.mp hmem with h1 | h1
        · exact absurd h1.symm h
        · exact h1
      obtain ⟨u, hfil, humem, hukey⟩ := ih htl hmem2
      refine ⟨u, ?_, List.mem_cons_of_mem u0 humem, hukey⟩
      rw [List.filter_cons, if_neg (by simp [h]), hfil]

/-- The inner accumulation loop over a posting list: when every posted
document resolves (its tokens and length are stored and its contribution's
divisions succeed), the loop returns the update sequence applied in posting
order, one update per document. -/
theorem bm25_inner_fold (idx : BM25Index) (t : String) (idfv : ℚ) :
    ∀ (P : List String) (acc0 : List (String × ℚ)),
      (∀ d ∈ P, ∃ tok : List String,
          dictGet? idx.documents d = some tok ∧
          dictGet? idx.doc_lengths d = some tok.length ∧
          ∃ c : ℚ, bm25Contrib idx idfv (tok.count t) tok.length = some c) →
      ∃ us : List (String × ℚ),
        P.foldlM (bm25InnerStep idx t idfv) acc0 = some (applyUpdates acc0 us)
          ∧ us.map Prod.fst = P
          ∧ ∀ u ∈ us, ∃ tok : List String,
              dictGet? idx.documents u.1 = some tok ∧
              bm25Contrib idx idfv (tok.count t) tok.length = some u.2 := by
  intro P
  induction P with
  | nil =>
    intro acc0 _
    exact ⟨[], rfl, rfl, by simp⟩
  | cons d P2 ih =>
    intro acc0 hdocs
    obtain ⟨tok, h1, h2, c, hc⟩ := hdocs d (List.mem_cons_self d P2)
    have hstep : bm25InnerStep idx t idfv acc0 d = some (addScore acc0 d c) := by
      simp [bm25InnerStep, h1, h2, hc]
    obtain ⟨us2, hfold, hkeys, hentries⟩ := ih (addScore acc0 d c)
      (fun w hw => hdocs w (List.mem_cons_of_mem d hw))
    refine ⟨(d, c) :: us2, ?_, ?_, ?_⟩
    · rw [List.foldlM_cons, hstep]
      have happ : applyUpdates acc0 ((d, c) :: us2)
          = applyUpdates (addScore acc0 d c) us2 := rfl
      rw [happ]
      simpa using hfold
    · rw [List.map_cons, hkeys]
    · intro u hu
      rcases List.mem_cons.mp hu with rfl | hu
      · exact ⟨tok, h1, hc⟩
      · exact hentries u hu

/-- C8: BM25 term-frequency monotonicity.  In an index whose stored tables
are consistent for the posted documents (as `add_document` guarantees), for
a single-term query on term `t`: a document containing `t` more often than
an otherwise comparable document of the same length receives a strictly
higher accumulated search score, and both documents appear with those
scores in the sorted search result before truncation.  Holds for positive
`idf` (automatic from `1 ≤ df ≤ N`), `k1 > 0` and `0 ≤ b < 1` (defaults
`k1 = 1.5`, `b = 0.75`). -/
theorem bm25_tf_monotonic (log : ℚ → ℚ) (idx : BM25Index) (t query : String)
    (P : List String) (tokOf : String → List String) (d1 d2 : String)
    (hlog : ∀ x, 1 < x → 0 < log x)
    (hq : tokenize query = [t])
    (hpost : dictGet? idx.inverted_index t = some P)
    (hP : P.Nodup)
    (htokOf : ∀ d ∈ P, dictGet? idx.documents d = some (tokOf d)
        ∧ dictGet? idx.doc_lengths d = some (tokOf d).length
        ∧ 1 ≤ (tokOf d).count t)
    (hd1 : d1 ∈ P) (hd2 : d2 ∈ P)
    (hlen : (tokOf d1).length = (tokOf d2).length)
    (htf : (tokOf d2).count t < (tokOf d1).count t)
    (hdf1 : 1 ≤ dictGetD idx.doc_freqs t 0)
    (hdfN : dictGetD idx.doc_freqs t 0 ≤ idx.N)
    (havg : 0 < idx.avg_doc_length)
    (hk1 : 0 < idx.k1) (hb0 : 0 ≤ idx.b) (hb1 : idx.b < 1) :
    ∃ acc, bm25Accumulate log idx query = some acc
      ∧ getScore acc d2 < getScore acc d1
      ∧ (d1, getScore acc d1) ∈ sortPairsDesc acc
      ∧ (d2, getScore acc d2) ∈ sortPairsDesc acc := by
  obtain ⟨idfv, hidf, hidfpos⟩ := bm25Idf_pos log idx t hlog hdf1 hdfN
  have hsucc : ∀ d ∈ P, ∃ c : ℚ,
      bm25Contrib idx idfv ((tokOf d).count t) (tokOf d).length = some c := by
    intro d hd
    obtain ⟨c1, c2, hc1, hc2, _⟩ := bm25Contrib_mono idx idfv
      ((tokOf d).count t + 1) ((tokOf d).count t) (tokOf d).length
      hidfpos havg hk1 hb0 hb1 (htokOf d hd).2.2 (Nat.lt_succ_self _)
    exact ⟨c2, hc2⟩
  obtain ⟨us, hfold, hkeys, hentries⟩ := bm25_inner_fold idx t idfv P []
    (fun d hd => ⟨tokOf d, (htokOf d hd).1, (htokOf d hd).2.1, hsucc d hd⟩)
  have husnodup : (us.map Prod.fst).Nodup := by rw [hkeys]; exact hP
  have haccus : applyUpdates [] us = us := by
    rw [applyUpdates_fresh us [] (by intro u _; simp [dictKeys]) husnodup]
    rfl
  have hacc : bm25Accumulate log idx query = some us := by
    unfold bm25Accumulate
    rw [hq, List.foldlM_cons]
    have hts : bm25TokenStep log idx [] t = some us := by
      unfold bm25TokenStep
      rw [hpost, hidf]
      show List.foldlM (bm25InnerStep idx t idfv) [] P = some us
      rw [hfold, haccus]
    rw [hts]
    show List.foldlM (bm25TokenStep log idx) us [] = some us
    rfl
  have hval : ∀ d ∈ P,
      bm25Contrib idx idfv ((tokOf d).count t) (tokOf d).length
        = some (getScore us d) := by
    intro d hd
    obtain ⟨u, hufilter, humem, hukey⟩ := filter_key_single us d husnodup
      (by rw [hkeys]; exact hd)
    have hg : getScore us d = u.2 := by
      have hga := getScore_applyUpdates us [] d
      rw [haccus] at hga
      rw [hga, hufilter]
      show getScore [] d + ([u.2].sum) = u.2
      show (0 : ℚ) + (u.2 + 0) = u.2
      ring
    obtain ⟨tok, htoku, hcontrib⟩ := hentries u humem
    rw [hukey] at htoku
    have htokeq : tok = tokOf d := by
      have h1 := (htokOf d hd).1
      rw [htoku] at h1
      exact Option.some.inj h1
    rw [htokeq] at hcontrib
    rw [hg]
    exact hcontrib
  obtain ⟨c1, c2, hc1, hc2, hlt⟩ := bm25Contrib_mono idx idfv
    ((tokOf d1).count t) ((tokOf d2).count t) (tokOf d2).length
    hidfpos havg hk1 hb0 hb1 (htokOf d2 hd2).2.2 htf
  have e1 : getScore us d1 = c1 := by
    have hv1 := hval d1 hd1
    rw [hlen] at hv1
    rw [hv1] at hc1
    exact (Option.some.inj hc1)
  have e2 : getScore us d2 = c2 := by
    have hv2 := hval d2 hd2
    rw [hv2] at hc2
    exact (Option.some.inj hc2)
  have hmem : ∀ d ∈ P, (d, getScore us d) ∈ sortPairsDesc us := by
    intro d hd
    have hk : d ∈ dictKeys us := by
      show d ∈ us.map Prod.fst
      rw [hkeys]
      exact hd
    exact (List.perm_insertionSort scoreGe us).symm.subset (mem_of_mem_dictKeys us d hk)
  refine ⟨us, hacc, ?_, hmem d1 hd1, hmem d2 hd2⟩
  rw [e1, e2]
  exact hlt

/-- Witness for C8 on the concrete three-document corpus. -/
theorem bm25_tf_monotonic_witness :
    ∃ acc, bm25Accumulate logStub c8Index c8Query = some acc
      ∧ getScore acc c8D2 < getScore acc c8D1
      ∧ (c8D1, getScore acc c8D1) ∈ sortPairsDesc acc
      ∧ (c8D2, getScore acc c8D2) ∈ sortPairsDesc acc :=
  bm25_tf_monotonic logStub c8Index tTok c8Query ["d1", "d2"] c8TokOf c8D1 c8D2
    (fun _ hx => sub_pos.mpr hx) (by decide) (by decide) (by decide) (by decide)
    (by decide) (by decide) (by decide) (by decide) (by decide) (by decide)
    (by decide) (by decide) (by decide) (by decide)

/-! ### Claim theorems C4 and C9 -/

/-- C4: Reciprocal Rank Fusion contract.  Every entry of the fused output
carries score `1/(k + rank)` summed over the input lists the id appears in
(1-based ranks; both contributions when in both lists, one otherwise); the
pre-truncation output lists exactly the distinct ids of the two inputs in
descending fused-score order, and the result is that list truncated to the
configured limit.  In particular an id alone at rank 1 of the dense list
with the sparse list empty fuses to exactly `1/(k+1)`. -/
theorem rrf_fused_score_contract (k limit : Nat) (a : String)
    (dense sparse : List String) (hd : dense.Nodup) (hs : sparse.Nodup) :
    (∀ p ∈ reciprocalRankFusion k limit dense sparse,
        p.2 = rrfContrib k dense p.1 + rrfContrib k sparse p.1)
      ∧ List.Perm ((sortPairsDesc (rrfScores k dense sparse)).map Prod.fst)
          ((dense ++ sparse).dedup)
      ∧ (sortPairsDesc (rrfScores k dense sparse)).Sorted scoreGe
      ∧ reciprocalRankFusion k limit dense sparse
          = (sortPairsDesc (rrfScores k dense sparse)).take limit
      ∧ (1 ≤ limit →
          reciprocalRankFusion k limit [a] [] = [(a, 1 / ((k : ℚ) + 1))]) := by
  refine ⟨?_, ?_, List.sorted_insertionSort scoreGe _, rfl, ?_⟩
  · intro p hp
    have hp1 : p ∈ sortPairsDesc (rrfScores k dense sparse) :=
      List.take_subset limit _ hp
    have hp2 : p ∈ rrfScores k dense sparse :=
      (List.perm_insertionSort scoreGe _).subset hp1
    have hv := snd_eq_getScore_of_nodup _ (nodup_dictKeys_rrfScores k dense sparse) p hp2
    rw [hv, getScore_rrfScores k dense sparse hd hs]
  · have h1 : List.Perm ((sortPairsDesc (rrfScores k dense sparse)).map Prod.fst)
        (dictKeys (rrfScores k dense sparse)) :=
      (List.perm_insertionSort scoreGe _).map Prod.fst
    refine h1.trans ?_
    rw [List.perm_ext_iff_of_nodup (nodup_dictKeys_rrfScores k dense sparse)
      (List.nodup_dedup _)]
    intro i
    rw [mem_dictKeys_rrfScores, List.mem_dedup, List.mem_append]
  · intro hlim
    obtain ⟨m, rfl⟩ : ∃ m, limit = m + 1 := ⟨limit - 1, by omega⟩
    have h5 : reciprocalRankFusion k (m + 1) [a] []
        = (a, 1 / ((k : ℚ) + (((0 : Nat) : ℚ) + 1))) :: List.take m [] := rfl
    rw [h5, List.take_nil]
    norm_num

/-- Witness for C4 at `k = 60`, `limit = 25`, concrete nodup id lists. -/
theorem rrf_fused_score_contract_witness :
    (∀ p ∈ reciprocalRankFusion 60 25 [strA, strB] [strB], p.2
        = rrfContrib 60 [strA, strB] p.1 + rrfContrib 60 [strB] p.1)
      ∧ List.Perm ((sortPairsDesc (rrfScores 60 [strA, strB] [strB])).map Prod.fst)
          (([strA, strB] ++ [strB]).dedup)
      ∧ (sortPairsDesc (rrfScores 60 [strA, strB] [strB])).Sorted scoreGe
      ∧ reciprocalRankFusion 60 25 [strA, strB] [strB]
          = (sortPairsDesc (rrfScores 60 [strA, strB] [strB])).take 25
      ∧ (1 ≤ 25 →
          reciprocalRankFusion 60 25 [c2Query] [] = [(c2Query, 1 / ((60 : ℚ) + 1))]) :=
  rrf_fused_score_contract 60 25 c2Query [strA, strB] [strB] (by decide) (by decide)

/-- C9: fusing a non-empty ranked list with an empty list, in either
argument position, returns exactly the ids of the list in their original
relative order, truncated to the configured limit. -/
theorem rrf_empty_input_degenerates (k limit : Nat) (L : List String)
    (hne : L ≠ []) (hnd : L.Nodup) :
    (reciprocalRankFusion k limit L []).map Prod.fst = L.take limit
      ∧ (reciprocalRankFusion k limit [] L).map Prod.fst = L.take limit := by
  obtain ⟨h1, h2⟩ := rrfScores_left_only k L hnd
  have hsorted : (rrfUpdates k L).Sorted scoreGe := rrfUpdates_sorted k L
  have hsort_eq : sortPairsDesc (rrfUpdates k L) = rrfUpdates k L :=
    List.Sorted.insertionSort_eq hsorted
  constructor
  · unfold reciprocalRankFusion
    rw [h1, hsort_eq, List.map_take, rrfUpdates_keys]
  · unfold reciprocalRankFusion
    rw [h2, hsort_eq, List.map_take, rrfUpdates_keys]

/-- Witness for C9 on a concrete two-element ranked list. -/
theorem rrf_empty_input_degenerates_witness :
    (reciprocalRankFusion 60 25 [strA, strB] []).map Prod.fst = [strA, strB].take 25
      ∧ (reciprocalRankFusion 60 25 [] [strA, strB]).map Prod.fst
          = [strA, strB].take 25 :=
  rrf_empty_input_degenerates 60 25 [strA, strB] (by decide) (by decide)

/-- Witness for the amended C5 at a concrete accumulation. -/
theorem bm25_sort_stable_wrt_accumulation_witness :
    search logStub BM25Index.empty cxQuery 7 = some ((sortPairsDesc []).take 7)
      ∧ (sortPairsDesc ([] : List (String × ℚ))).Sorted scoreGe
      ∧ (sortPairsDesc ([] : List (String × ℚ))).filter (fun p => decide (p.2 = 0))
          = ([] : List (String × ℚ)).filter (fun p => decide (p.2 = 0)) :=
  bm25_sort_stable_wrt_accumulation logStub BM25Index.empty cxQuery 7 [] 0
    (bm25Accumulate_empty_index logStub cxQuery)

/-- Witness for C10 at a concrete truncating input. -/
theorem rerank_perm_of_truncation_witness :
    List.Perm (((rerank 2 1 failingOracle () [10, 11, 12]).1).map (·.candidate))
        (([10, 11, 12] : List ℕ).take 2)
      ∧ (2 < ([10, 11, 12] : List ℕ).length →
          ((rerank 2 1 failingOracle () [10, 11, 12]).1).length
            < ([10, 11, 12] : List ℕ).length) :=
  rerank_perm_of_truncation 2 1 failingOracle () [10, 11, 12] (by decide)

end CloudRec
